import Mathlib

/-!
Shallow embedding of `differential_threads.py`.

The program computes with `pint` quantities whose magnitudes are floats (and
exact `fractions.Fraction`s); we idealise float arithmetic as real arithmetic.
Every magnitude the program ever computes has the form `a + b·√3` with
rational `a`, `b` (the only irrational constant is `math.sqrt(3)` in the
minor-diameter formula), so we represent magnitudes exactly by such pairs
(`Q3`) and prove that the exact comparison operations agree with comparison
of the corresponding real numbers.  Lengths are normalised to a single unit
(millimetres); `pint`'s unit conversion is exact, so this loses nothing.
-/

namespace DiffThreads

/-- A number of the form `a + b·√3` with `a b : ℚ`: the exact value of a
magnitude computed by the program. -/
structure Q3 where
  a : ℚ
  b : ℚ
deriving DecidableEq, Repr

/-- The real number represented by a `Q3` value. -/
noncomputable def Q3.toReal (x : Q3) : ℝ :=
  x.a + x.b * Real.sqrt 3

/-- Embedding of a rational magnitude. -/
def Q3.ofRat (q : ℚ) : Q3 := ⟨q, 0⟩

/-- The constant `math.sqrt(3)` of the source. -/
def sqrt3 : Q3 := ⟨0, 1⟩

instance : Add Q3 := ⟨fun x y => ⟨x.a + y.a, x.b + y.b⟩⟩

instance : Sub Q3 := ⟨fun x y => ⟨x.a - y.a, x.b - y.b⟩⟩

instance : Mul Q3 := ⟨fun x y => ⟨x.a * y.a + 3 * x.b * y.b, x.a * y.b + x.b * y.a⟩⟩

/-- Division of a magnitude by a rational scalar. -/
def Q3.divRat (x : Q3) (q : ℚ) : Q3 := ⟨x.a / q, x.b / q⟩

theorem Q3.sqrt_three_sq : Real.sqrt 3 ^ 2 = 3 :=
  Real.sq_sqrt (by norm_num)

theorem Q3.sqrt_three_pos : (0 : ℝ) < Real.sqrt 3 :=
  Real.sqrt_pos.mpr (by norm_num)

@[simp] theorem Q3.toReal_ofRat (q : ℚ) : (Q3.ofRat q).toReal = (q : ℝ) := by
  simp [Q3.toReal, Q3.ofRat]

@[simp] theorem Q3.toReal_sqrt3 : sqrt3.toReal = Real.sqrt 3 := by
  simp [Q3.toReal, sqrt3]

theorem Q3.add_def (x y : Q3) : x + y = ⟨x.a + y.a, x.b + y.b⟩ := rfl

theorem Q3.sub_def (x y : Q3) : x - y = ⟨x.a - y.a, x.b - y.b⟩ := rfl

theorem Q3.mul_def (x y : Q3) :
    x * y = ⟨x.a * y.a + 3 * x.b * y.b, x.a * y.b + x.b * y.a⟩ := rfl

@[simp] theorem Q3.toReal_add (x y : Q3) : (x + y).toReal = x.toReal + y.toReal := by
  simp only [Q3.add_def, Q3.toReal]
  push_cast
  ring

@[simp] theorem Q3.toReal_sub (x y : Q3) : (x - y).toReal = x.toReal - y.toReal := by
  simp only [Q3.sub_def, Q3.toReal]
  push_cast
  ring

@[simp] theorem Q3.toReal_mul (x y : Q3) : (x * y).toReal = x.toReal * y.toReal := by
  have h3 : Real.sqrt 3 * Real.sqrt 3 = 3 := Real.mul_self_sqrt (by norm_num)
  simp only [Q3.mul_def, Q3.toReal]
  push_cast
  linear_combination (-((x.b : ℝ) * (y.b : ℝ))) * h3

@[simp] theorem Q3.toReal_divRat (x : Q3) (q : ℚ) :
    (x.divRat q).toReal = x.toReal / (q : ℝ) := by
  simp only [Q3.toReal, Q3.divRat]
  push_cast
  ring

/-- Exact sign test: `x.pos` holds iff the represented real number is
strictly positive (the comparison the source performs on float magnitudes). -/
def Q3.pos (x : Q3) : Prop :=
  if 0 ≤ x.a then
    if 0 ≤ x.b then 0 < x.a ∨ 0 < x.b
    else 3 * x.b ^ 2 < x.a ^ 2
  else
    if 0 ≤ x.b then x.a ^ 2 < 3 * x.b ^ 2
    else False

instance : DecidablePred Q3.pos := fun x => by
  unfold Q3.pos
  infer_instance

theorem Q3.pos_iff (x : Q3) : x.pos ↔ 0 < x.toReal := by
  obtain ⟨a, b⟩ := x
  have h3 := Q3.sqrt_three_sq
  have h0 := Q3.sqrt_three_pos
  by_cases ha : (0 : ℚ) ≤ a <;> by_cases hb : (0 : ℚ) ≤ b <;>
    simp only [Q3.pos, Q3.toReal, ha, hb, if_true, if_false, iff_false] <;>
    [skip; skip; skip; skip]
  · constructor
    · rintro (h | h)
      · have ha' : (0 : ℝ) < (a : ℚ) := by exact_mod_cast h
        have hb' : (0 : ℝ) ≤ (b : ℚ) := by exact_mod_cast hb
        nlinarith [mul_nonneg hb' h0.le]
      · have ha' : (0 : ℝ) ≤ (a : ℚ) := by exact_mod_cast ha
        have hb' : (0 : ℝ) < (b : ℚ) := by exact_mod_cast h
        nlinarith [mul_pos hb' h0]
    · intro h
      by_contra hc
      push_neg at hc
      obtain ⟨h1, h2⟩ := hc
      have ha0 : a = 0 := le_antisymm h1 ha
      have hb0 : b = 0 := le_antisymm h2 hb
      rw [ha0, hb0] at h
      norm_num at h
  · push_neg at hb
    have hb' : ((b : ℝ)) < 0 := by exact_mod_cast hb
    have ha' : (0 : ℝ) ≤ (a : ℚ) := by exact_mod_cast ha
    constructor
    · intro h
      have h' : ((3 : ℝ)) * (b : ℚ) ^ 2 < ((a : ℚ)) ^ 2 := by exact_mod_cast h
      have hsq : ((-(b : ℝ)) * Real.sqrt 3) ^ 2 < ((a : ℝ)) ^ 2 := by
        rw [mul_pow, h3]
        nlinarith
      have := lt_of_pow_lt_pow_left₀ 2 ha' hsq
      nlinarith
    · intro h
      have hgt : (-(b : ℝ)) * Real.sqrt 3 < (a : ℝ) := by nlinarith
      have hnn : (0 : ℝ) ≤ (-(b : ℝ)) * Real.sqrt 3 := by nlinarith
      have hsq := pow_lt_pow_left₀ hgt hnn (two_ne_zero)
      rw [mul_pow, h3] at hsq
      have : ((3 : ℝ)) * (b : ℚ) ^ 2 < ((a : ℚ)) ^ 2 := by nlinarith
      exact_mod_cast this
  · push_neg at ha
    have ha' : ((a : ℝ)) < 0 := by exact_mod_cast ha
    have hb' : (0 : ℝ) ≤ (b : ℚ) := by exact_mod_cast hb
    constructor
    · intro h
      have h' : ((a : ℝ)) ^ 2 < 3 * ((b : ℚ)) ^ 2 := by exact_mod_cast h
      have hsq : ((-(a : ℝ))) ^ 2 < ((b : ℝ) * Real.sqrt 3) ^ 2 := by
        rw [mul_pow, h3]
        nlinarith
      have hnn : (0 : ℝ) ≤ (b : ℝ) * Real.sqrt 3 := mul_nonneg hb' h0.le
      have := lt_of_pow_lt_pow_left₀ 2 hnn hsq
      nlinarith
    · intro h
      have hgt : (-(a : ℝ)) < (b : ℝ) * Real.sqrt 3 := by nlinarith
      have hnn : (0 : ℝ) ≤ (-(a : ℝ)) := by nlinarith
      have hsq := pow_lt_pow_left₀ hgt hnn (two_ne_zero)
      rw [mul_pow, h3] at hsq
      have : ((a : ℚ) : ℝ) ^ 2 < 3 * ((b : ℚ)) ^ 2 := by nlinarith
      exact_mod_cast this
  · push_neg at ha hb
    have ha' : ((a : ℝ)) < 0 := by exact_mod_cast ha
    have hb' : ((b : ℝ)) < 0 := by exact_mod_cast hb
    simp only [false_iff]
    push_neg
    nlinarith [mul_pos (neg_pos.mpr hb') h0]

/-- Exact strict comparison, agreeing with `<` on the represented reals. -/
def Q3.lt (x y : Q3) : Prop := Q3.pos (y - x)

instance : DecidableRel Q3.lt := fun x y => by
  unfold Q3.lt
  infer_instance

theorem Q3.lt_iff (x y : Q3) : x.lt y ↔ x.toReal < y.toReal := by
  rw [Q3.lt, Q3.pos_iff, Q3.toReal_sub, sub_pos]

theorem Q3.not_lt_iff (x y : Q3) : ¬ x.lt y ↔ y.toReal ≤ x.toReal := by
  rw [Q3.lt_iff, not_lt]

/-- Python truthiness of an optional quantity argument, as tested by
`if self.pitch:` — `None` and a zero magnitude are falsy, every other
magnitude is truthy. -/
def truthy : Option ℚ → Bool
  | none => false
  | some x => x != 0

/-- The dataclass `Thread`, fields in declaration order.  In every
construction the program performs, `major_diameter`, `pitch` and `tpi` are
rational magnitudes; only the derived `minor_diameter` involves `√3`.
Lengths are in millimetres, densities in 1/mm. -/
structure Thread where
  major_diameter : ℚ
  minor_diameter : Q3
  pitch : ℚ
  tpi : ℚ
deriving DecidableEq, Repr

/-- `Thread.__post_init__`: resolve `(pitch, tpi)` — deriving the missing
one as a reciprocal, or `raise ValueError` (modelled as `none`) when both
are falsy — and then derive
`minor_diameter = major_diameter - ((5 * sqrt(3) * pitch) / 8)`. -/
def Thread.make (major_diameter : ℚ) (pitch tpi : Option ℚ) : Option Thread :=
  (if truthy pitch then
    some (pitch.getD 0, 1 / pitch.getD 0)
  else if truthy tpi then
    some (1 / tpi.getD 0, tpi.getD 0)
  else
    none).map fun pt =>
    { major_diameter := major_diameter
      minor_diameter :=
        Q3.ofRat major_diameter - ((Q3.ofRat 5 * sqrt3 * Q3.ofRat pt.1).divRat 8)
      pitch := pt.1
      tpi := pt.2 }

/-- `Thread.__gt__`: Python tuple comparison
`(self.major_diameter, self.minor_diameter) > (other.major_diameter, other.minor_diameter)`. -/
def Thread.gt (t o : Thread) : Prop :=
  o.major_diameter < t.major_diameter ∨
    (t.major_diameter = o.major_diameter ∧ Q3.lt o.minor_diameter t.minor_diameter)

instance : ∀ t o : Thread, Decidable (Thread.gt t o) := fun t o => by
  unfold Thread.gt
  infer_instance

/-- `functools.total_ordering` derives `__lt__` from the supplied `__gt__`
and the dataclass `__eq__`: `a < b ↔ ¬ (a > b ∨ a = b)`. -/
def Thread.lt (t o : Thread) : Prop := ¬ (Thread.gt t o ∨ t = o)

instance : ∀ t o : Thread, Decidable (Thread.lt t o) := fun t o => by
  unfold Thread.lt
  infer_instance

/-- `sorted(self.thread_pair)`: a stable sort of a two-element list swaps
the elements exactly when the second compares `<` the first. -/
def sortPair (p : Thread × Thread) : Thread × Thread :=
  if Thread.lt p.2 p.1 then (p.2, p.1) else (p.1, p.2)

/-- The dataclass `DifferentialThread`, fields in declaration order;
`thread_pair` and `effective_tpi` are declared with `compare=False`. -/
structure DifferentialThread where
  thread_pair : Thread × Thread
  effective_pitch : ℚ
  effective_tpi : ℚ
  radial_clearance : Q3
deriving DecidableEq, Repr

/-- `DifferentialThread.__post_init__`: order the pair, take the absolute
pitch difference and its reciprocal, and clamp a non-positive computed
radial clearance to zero. -/
def DifferentialThread.make (thread_pair : Thread × Thread) : DifferentialThread :=
  let smaller_thread := (sortPair thread_pair).1
  let larger_thread := (sortPair thread_pair).2
  let effective_pitch := |smaller_thread.pitch - larger_thread.pitch|
  let radial_clearance :=
    (larger_thread.minor_diameter - Q3.ofRat smaller_thread.major_diameter).divRat 2
  { thread_pair := thread_pair
    effective_pitch := effective_pitch
    effective_tpi := 1 / effective_pitch
    radial_clearance :=
      if Q3.pos radial_clearance then radial_clearance else Q3.ofRat 0 }

/-- `dataclasses.dataclass(order=True)` comparison of `DifferentialThread`:
lexicographic on the tuple of fields with `compare=True`, which is
`(effective_pitch, radial_clearance)`. -/
def DifferentialThread.lt (d e : DifferentialThread) : Prop :=
  d.effective_pitch < e.effective_pitch ∨
    (d.effective_pitch = e.effective_pitch ∧ Q3.lt d.radial_clearance e.radial_clearance)

instance : ∀ d e : DifferentialThread, Decidable (DifferentialThread.lt d e) := fun d e => by
  unfold DifferentialThread.lt
  infer_instance

/-- The comparator realised by Python `sorted`, which sorts ascending with
respect to `__lt__`: element `d` may precede `e` exactly when `¬ (e < d)`. -/
def DifferentialThread.leB (d e : DifferentialThread) : Bool :=
  ! decide (DifferentialThread.lt e d)

/-- `itertools.combinations(THREADS, 2)`: the pairs of positions `i < j`,
in lexicographic position order. -/
def combinations2 : List Thread → List (Thread × Thread)
  | [] => []
  | x :: xs => xs.map (fun y => (x, y)) ++ combinations2 xs

/-- The generator expression feeding the catalog: all 2-combinations,
keeping only pairs of distinct pitch. -/
def candidatePairs (threads : List Thread) : List (Thread × Thread) :=
  (combinations2 threads).filter fun p => p.1.pitch != p.2.pitch

/-- The sorted catalog handed to `json.dump`: construct a
`DifferentialThread` per surviving pair and sort. -/
def generate (threads : List Thread) : List DifferentialThread :=
  ((candidatePairs threads).map DifferentialThread.make).mergeSort DifferentialThread.leB

/-- The `threads` field of an output record:
`[str(thread) for thread in differential.thread_pair]` — the threads in
`thread_pair` order (the display-string projection is order-preserving, so
we keep the threads themselves). -/
def recordThreads (d : DifferentialThread) : List Thread :=
  [d.thread_pair.1, d.thread_pair.2]

/-! ### Helper lemmas about `Thread.make` -/

theorem truthy_eq_false_iff (q : Option ℚ) :
    truthy q = false ↔ q = none ∨ q = some 0 := by
  cases q with
  | none => simp [truthy]
  | some x =>
    simp only [truthy, bne_eq_false_iff_eq, Option.some.injEq]
    constructor
    · intro h
      exact Or.inr h
    · rintro (h | h)
      · cases h
      · exact h

theorem truthy_eq_true_iff (q : Option ℚ) :
    truthy q = true ↔ ∃ x, q = some x ∧ x ≠ 0 := by
  cases q with
  | none => simp [truthy]
  | some x => simp [truthy]

/-- First branch of `__post_init__`: a truthy pitch argument is stored and
the density is derived as its reciprocal. -/
theorem Thread.make_truthy_pitch (M : ℚ) {popt : Option ℚ} (topt : Option ℚ)
    (h1 : truthy popt = true) :
    Thread.make M popt topt =
      some { major_diameter := M
             minor_diameter :=
               Q3.ofRat M - ((Q3.ofRat 5 * sqrt3 * Q3.ofRat (popt.getD 0)).divRat 8)
             pitch := popt.getD 0
             tpi := 1 / popt.getD 0 } := by
  rw [Thread.make, if_pos h1]
  rfl

/-- Second branch of `__post_init__`: with a falsy pitch argument and a
truthy density argument, the pitch is derived as the density's reciprocal. -/
theorem Thread.make_truthy_tpi (M : ℚ) {popt topt : Option ℚ}
    (h1 : truthy popt = false) (h2 : truthy topt = true) :
    Thread.make M popt topt =
      some { major_diameter := M
             minor_diameter :=
               Q3.ofRat M - ((Q3.ofRat 5 * sqrt3 * Q3.ofRat (1 / topt.getD 0)).divRat 8)
             pitch := 1 / topt.getD 0
             tpi := topt.getD 0 } := by
  rw [Thread.make, if_neg (by simp [h1]), if_pos h2]
  rfl

/-- Third branch of `__post_init__`: both arguments falsy — `raise ValueError`. -/
theorem Thread.make_falsy (M : ℚ) {popt topt : Option ℚ}
    (h1 : truthy popt = false) (h2 : truthy topt = false) :
    Thread.make M popt topt = none := by
  rw [Thread.make, if_neg (by simp [h1]), if_neg (by simp [h2])]
  rfl

/-- Every successfully constructed thread satisfies the shared derivations of
`__post_init__`: the major diameter is stored unchanged, the minor diameter
follows the `5·√3/8` formula applied to the stored pitch, the stored pitch is
nonzero, and the stored density is its exact reciprocal. -/
theorem Thread.make_eq_some {M : ℚ} {popt topt : Option ℚ} {t : Thread}
    (h : Thread.make M popt topt = some t) :
    t.major_diameter = M ∧
    t.minor_diameter =
      Q3.ofRat M - ((Q3.ofRat 5 * sqrt3 * Q3.ofRat t.pitch).divRat 8) ∧
    t.pitch ≠ 0 ∧ t.tpi = 1 / t.pitch ∧ t.pitch * t.tpi = 1 := by
  by_cases h1 : truthy popt
  · obtain ⟨p, hp, hp0⟩ := (truthy_eq_true_iff popt).mp h1
    subst hp
    rw [Thread.make_truthy_pitch M topt h1, Option.some.injEq] at h
    subst h
    simp only [Option.getD_some]
    exact ⟨trivial, trivial, hp0, trivial, by field_simp⟩
  · by_cases h2 : truthy topt
    · obtain ⟨d, hd, hd0⟩ := (truthy_eq_true_iff topt).mp h2
      subst hd
      rw [Thread.make_truthy_tpi M (by simpa using h1) h2, Option.some.injEq] at h
      subst h
      simp only [Option.getD_some]
      have hne : (1 : ℚ) / d ≠ 0 := one_div_ne_zero hd0
      refine ⟨trivial, trivial, hne, ?_, ?_⟩
      · rw [one_div_one_div]
      · field_simp
    · rw [Thread.make_falsy M (by simpa using h1) (by simpa using h2)] at h
      cases h

/-- Which pitch gets stored: the supplied one when the pitch argument is
truthy, else the reciprocal of the supplied density. -/
theorem Thread.make_pitch_spec {M : ℚ} {popt topt : Option ℚ} {t : Thread}
    (h : Thread.make M popt topt = some t) :
    (truthy popt = true ∧ t.pitch = popt.getD 0) ∨
    (truthy popt = false ∧ truthy topt = true ∧ t.pitch = 1 / topt.getD 0) := by
  by_cases h1 : truthy popt
  · left
    refine ⟨h1, ?_⟩
    rw [Thread.make_truthy_pitch M topt h1, Option.some.injEq] at h
    subst h
    rfl
  · by_cases h2 : truthy topt
    · right
      refine ⟨by simpa using h1, h2, ?_⟩
      rw [Thread.make_truthy_tpi M (by simpa using h1) h2, Option.some.injEq] at h
      subst h
      rfl
    · rw [Thread.make_falsy M (by simpa using h1) (by simpa using h2)] at h
      cases h

/-- The real value of the minor-diameter formula. -/
theorem minor_toReal (M p : ℚ) :
    (Q3.ofRat M - ((Q3.ofRat 5 * sqrt3 * Q3.ofRat p).divRat 8)).toReal
      = (M : ℝ) - (5 * Real.sqrt 3 * (p : ℝ)) / 8 := by
  rw [Q3.toReal_sub, Q3.toReal_divRat, Q3.toReal_mul, Q3.toReal_mul, Q3.toReal_ofRat,
    Q3.toReal_ofRat, Q3.toReal_sqrt3]
  norm_num

/-! ### Concrete catalog threads used as test inputs -/

/-- The value of `ISOThread.from_mm(1, 0.25)` in the embedding. -/
def threadA : Thread :=
  { major_diameter := 1
    minor_diameter := ⟨1, -5/32⟩
    pitch := 1/4
    tpi := 4 }

/-- The value of `ISOThread.from_mm(1.2, 0.2)` in the embedding. -/
def threadB : Thread :=
  { major_diameter := 6/5
    minor_diameter := ⟨6/5, -1/8⟩
    pitch := 1/5
    tpi := 5 }

/-- The value of `ISOThread.from_mm(6, 1.0)` in the embedding. -/
def threadC : Thread :=
  { major_diameter := 6
    minor_diameter := ⟨6, -5/8⟩
    pitch := 1
    tpi := 1 }

theorem threadA_make : Thread.make 1 (some (1/4)) none = some threadA := by
  rw [Thread.make_truthy_pitch 1 none (by norm_num [truthy])]
  simp only [Option.getD_some, Option.some.injEq]
  norm_num [threadA, Q3.ofRat, sqrt3, Q3.mul_def, Q3.sub_def, Q3.divRat]

theorem threadB_make : Thread.make (6/5) (some (1/5)) none = some threadB := by
  rw [Thread.make_truthy_pitch (6/5) none (by norm_num [truthy])]
  simp only [Option.getD_some, Option.some.injEq]
  norm_num [threadB, Q3.ofRat, sqrt3, Q3.mul_def, Q3.sub_def, Q3.divRat]

theorem threadC_make : Thread.make 6 (some 1) none = some threadC := by
  rw [Thread.make_truthy_pitch 6 none (by norm_num [truthy])]
  simp only [Option.getD_some, Option.some.injEq]
  norm_num [threadC, Q3.ofRat, sqrt3, Q3.mul_def, Q3.sub_def, Q3.divRat]

/-! ### Claims about `Thread` construction -/

/-- Claim C1: for every thread constructed with a positive major diameter and
a positive pitch (given directly, or derived as the reciprocal of the
supplied density), the derived minor diameter equals
`major_diameter − (5·√3·pitch)/8`. -/
theorem claim1_minor_diameter_formula (M : ℚ) (popt topt : Option ℚ) (t : Thread)
    (hM : 0 < M) (hP : 0 < t.pitch)
    (h : Thread.make M popt topt = some t) :
    t.minor_diameter.toReal =
      (t.major_diameter : ℝ) - (5 * Real.sqrt 3 * (t.pitch : ℝ)) / 8 := by
  obtain ⟨hmaj, hmin, -, -, -⟩ := Thread.make_eq_some h
  rw [hmin, minor_toReal, hmaj]

/-- Witness for C1 at `Thread(major=1mm, pitch=0.25mm)`: the minor diameter
is `1 − 5·√3·0.25/8` (≈ 0.729) millimetres. -/
theorem claim1_witness :
    threadA.minor_diameter.toReal =
      (threadA.major_diameter : ℝ) - (5 * Real.sqrt 3 * (threadA.pitch : ℝ)) / 8 :=
  claim1_minor_diameter_formula 1 (some (1/4)) none threadA (by norm_num)
    (by norm_num [threadA]) threadA_make

/-- Counterexample to claim C4: the claim demands failure whenever a supplied
value is non-positive, but constructing a thread with the negative pitch
`-0.25` succeeds (Python truthiness only filters out `None` and zero). -/
theorem claim4_counterexample :
    (Thread.make 1 (some (-1/4)) none).isSome = true := by
  rw [Thread.make_truthy_pitch 1 none (by norm_num [truthy])]
  rfl

/-- Claim C4 (amended): construction fails exactly when the pitch argument is
absent or zero and the density argument is absent or zero; nonzero supplied
values — including negative ones — are accepted, and the major diameter is
never validated. -/
theorem claim4_validation_amended (M : ℚ) (popt topt : Option ℚ) :
    Thread.make M popt topt = none ↔
      (popt = none ∨ popt = some 0) ∧ (topt = none ∨ topt = some 0) := by
  constructor
  · intro h
    by_cases h1 : truthy popt
    · rw [Thread.make_truthy_pitch M topt h1] at h
      cases h
    · by_cases h2 : truthy topt
      · rw [Thread.make_truthy_tpi M (by simpa using h1) h2] at h
        cases h
      · exact ⟨(truthy_eq_false_iff popt).mp (by simpa using h1),
          (truthy_eq_false_iff topt).mp (by simpa using h2)⟩
  · rintro ⟨hp, ht⟩
    exact Thread.make_falsy M ((truthy_eq_false_iff popt).mpr hp)
      ((truthy_eq_false_iff topt).mpr ht)

/-- Claim C7: every thread constructed from valid inputs (positive major
diameter, exactly one positive value among pitch and density) stores an exact
reciprocal pair (`pitch × density = 1`) and has `minor < major`. -/
theorem claim7_thread_invariants (M : ℚ) (popt topt : Option ℚ) (t : Thread)
    (hM : 0 < M)
    (hvalid : (∃ p, 0 < p ∧ popt = some p ∧ topt = none) ∨
      (∃ d, 0 < d ∧ popt = none ∧ topt = some d))
    (h : Thread.make M popt topt = some t) :
    t.pitch * t.tpi = 1 ∧ t.minor_diameter.toReal < (t.major_diameter : ℝ) := by
  obtain ⟨hmaj, hmin, hne, htpi, hmul⟩ := Thread.make_eq_some h
  have hpp : 0 < t.pitch := by
    rcases hvalid with ⟨p, hp0, hpe, hte⟩ | ⟨d, hd0, hpe, hte⟩
    · rcases Thread.make_pitch_spec h with ⟨-, hp⟩ | ⟨hf, -, -⟩
      · rw [hp, hpe, Option.getD_some]
        exact hp0
      · rw [hpe] at hf
        simp [truthy, hp0.ne'] at hf
    · rcases Thread.make_pitch_spec h with ⟨ht, -⟩ | ⟨-, -, hp⟩
      · rw [hpe] at ht
        simp [truthy] at ht
      · rw [hp, hte, Option.getD_some]
        exact one_div_pos.mpr hd0
  refine ⟨hmul, ?_⟩
  rw [hmin, minor_toReal, hmaj]
  have hpr : (0 : ℝ) < (t.pitch : ℝ) := by exact_mod_cast hpp
  nlinarith [Q3.sqrt_three_pos]

/-- Witness for C7 at `Thread(major=1mm, pitch=0.25mm)`. -/
theorem claim7_witness :
    threadA.pitch * threadA.tpi = 1 ∧
      threadA.minor_diameter.toReal < (threadA.major_diameter : ℝ) :=
  claim7_thread_invariants 1 (some (1/4)) none threadA (by norm_num)
    (Or.inl ⟨1/4, by norm_num, rfl, rfl⟩) threadA_make

/-- Claim C9: when both a positive pitch and a positive density are supplied,
construction succeeds without error and the supplied density is silently
discarded — the stored density is recomputed as `1/pitch`. -/
theorem claim9_pitch_precedence (M p d : ℚ) (hp : 0 < p) (hd : 0 < d) :
    Thread.make M (some p) (some d) =
      some { major_diameter := M
             minor_diameter :=
               Q3.ofRat M - ((Q3.ofRat 5 * sqrt3 * Q3.ofRat p).divRat 8)
             pitch := p
             tpi := 1 / p } := by
  rw [Thread.make_truthy_pitch M (some d) (by simp [truthy, hp.ne'])]
  rfl

/-- Witness for C9: pitch `0.25` beats a simultaneously supplied density of
`100`: the stored density is `1/(1/4) = 4`, not `100`. -/
theorem claim9_witness :
    Thread.make 1 (some (1/4)) (some 100) =
      some { major_diameter := 1
             minor_diameter :=
               Q3.ofRat 1 - ((Q3.ofRat 5 * sqrt3 * Q3.ofRat (1/4)).divRat 8)
             pitch := 1/4
             tpi := 1 / (1/4) } :=
  claim9_pitch_precedence 1 (1/4) 100 (by norm_num) (by norm_num)

/-! ### Helper lemmas about `DifferentialThread.make` and `sortPair` -/

theorem DifferentialThread.make_thread_pair (p : Thread × Thread) :
    (DifferentialThread.make p).thread_pair = p := rfl

theorem DifferentialThread.make_effective_pitch (p : Thread × Thread) :
    (DifferentialThread.make p).effective_pitch =
      |(sortPair p).1.pitch - (sortPair p).2.pitch| := rfl

theorem DifferentialThread.make_effective_tpi (p : Thread × Thread) :
    (DifferentialThread.make p).effective_tpi =
      1 / (DifferentialThread.make p).effective_pitch := rfl

theorem DifferentialThread.make_radial_clearance (p : Thread × Thread) :
    (DifferentialThread.make p).radial_clearance =
      if Q3.pos (((sortPair p).2.minor_diameter -
          Q3.ofRat (sortPair p).1.major_diameter).divRat 2)
      then ((sortPair p).2.minor_diameter -
          Q3.ofRat (sortPair p).1.major_diameter).divRat 2
      else Q3.ofRat 0 := rfl

/-- `sorted` returns the input pair either as-is or swapped. -/
theorem sortPair_eq (p : Thread × Thread) :
    sortPair p = (p.1, p.2) ∨ sortPair p = (p.2, p.1) := by
  unfold sortPair
  split_ifs
  · exact Or.inr rfl
  · exact Or.inl rfl

/-- The sorted pair is ascending with respect to the thread total order's
key, the tuple `(major_diameter, minor_diameter)`. -/
theorem sortPair_le (p : Thread × Thread) :
    (sortPair p).1.major_diameter < (sortPair p).2.major_diameter ∨
      ((sortPair p).1.major_diameter = (sortPair p).2.major_diameter ∧
        (sortPair p).1.minor_diameter.toReal ≤ (sortPair p).2.minor_diameter.toReal) := by
  unfold sortPair
  by_cases hlt : Thread.lt p.2 p.1
  · rw [if_pos hlt]
    unfold Thread.lt Thread.gt at hlt
    push_neg at hlt
    obtain ⟨⟨hle, himp⟩, -⟩ := hlt
    rcases lt_or_eq_of_le hle with h | h
    · exact Or.inl h
    · exact Or.inr ⟨h, (Q3.not_lt_iff _ _).mp (himp h)⟩
  · rw [if_neg hlt]
    unfold Thread.lt at hlt
    rw [not_not] at hlt
    rcases hlt with hgt | heq
    · rcases hgt with h | ⟨heq, hmin⟩
      · exact Or.inl h
      · exact Or.inr ⟨heq.symm, le_of_lt ((Q3.lt_iff _ _).mp hmin)⟩
    · rw [heq]
      exact Or.inr ⟨rfl, le_refl _⟩

/-! ### Claims about `DifferentialThread` construction -/

/-- Claim C2: the two threads of a pair are ordered by the thread total order
(ascending by `(major_diameter, minor_diameter)`) into smaller and larger;
the effective pitch is the absolute pitch difference of that ordered pair and
the effective density is its reciprocal. -/
theorem claim2_differential_derivation (p : Thread × Thread)
    (hp : p.1.pitch ≠ p.2.pitch) :
    (sortPair p = (p.1, p.2) ∨ sortPair p = (p.2, p.1)) ∧
    ((sortPair p).1.major_diameter < (sortPair p).2.major_diameter ∨
      ((sortPair p).1.major_diameter = (sortPair p).2.major_diameter ∧
        (sortPair p).1.minor_diameter.toReal ≤ (sortPair p).2.minor_diameter.toReal)) ∧
    (DifferentialThread.make p).effective_pitch =
      |(sortPair p).1.pitch - (sortPair p).2.pitch| ∧
    (DifferentialThread.make p).effective_tpi =
      1 / (DifferentialThread.make p).effective_pitch :=
  ⟨sortPair_eq p, sortPair_le p, rfl, rfl⟩

/-- Witness for C2 at the pair `(M1×0.25, M1.2×0.2)`. -/
theorem claim2_witness :
    (DifferentialThread.make (threadA, threadB)).effective_pitch =
      |(sortPair (threadA, threadB)).1.pitch - (sortPair (threadA, threadB)).2.pitch| :=
  (claim2_differential_derivation (threadA, threadB)
    (by norm_num [threadA, threadB])).2.2.1

/-- Claim C3: the radial clearance equals
`(minor_diameter(larger) − major_diameter(smaller)) / 2` when that value is
positive and is clamped to zero when it is `≤ 0`; consequently it is always
non-negative, with no error path. -/
theorem claim3_radial_clearance_clamp (p : Thread × Thread) :
    (0 < (((sortPair p).2.minor_diameter -
        Q3.ofRat (sortPair p).1.major_diameter).divRat 2).toReal →
      (DifferentialThread.make p).radial_clearance =
        ((sortPair p).2.minor_diameter -
          Q3.ofRat (sortPair p).1.major_diameter).divRat 2) ∧
    ((((sortPair p).2.minor_diameter -
        Q3.ofRat (sortPair p).1.major_diameter).divRat 2).toReal ≤ 0 →
      (DifferentialThread.make p).radial_clearance = Q3.ofRat 0) ∧
    0 ≤ (DifferentialThread.make p).radial_clearance.toReal := by
  by_cases hpos : Q3.pos (((sortPair p).2.minor_diameter -
      Q3.ofRat (sortPair p).1.major_diameter).divRat 2)
  · have h0 := (Q3.pos_iff _).mp hpos
    rw [DifferentialThread.make_radial_clearance p, if_pos hpos]
    exact ⟨fun _ => rfl, fun hle => absurd h0 (not_lt.mpr hle), le_of_lt h0⟩
  · have h0 : ¬ 0 < (((sortPair p).2.minor_diameter -
        Q3.ofRat (sortPair p).1.major_diameter).divRat 2).toReal :=
      fun c => hpos ((Q3.pos_iff _).mpr c)
    rw [DifferentialThread.make_radial_clearance p, if_neg hpos]
    refine ⟨fun hlt => absurd hlt h0, fun _ => rfl, ?_⟩
    rw [Q3.toReal_ofRat]
    norm_num

/-- Witness for C3 at the pair `(M1×0.25, M6×1.0)`, whose raw clearance is
positive, so it is reported unclamped. -/
theorem claim3_witness :
    (DifferentialThread.make (threadA, threadC)).radial_clearance =
      ((sortPair (threadA, threadC)).2.minor_diameter -
        Q3.ofRat (sortPair (threadA, threadC)).1.major_diameter).divRat 2 :=
  (claim3_radial_clearance_clamp (threadA, threadC)).1 (by
    have hgt : Thread.gt threadC threadA := Or.inl (by norm_num [threadA, threadC])
    have hns : ¬ Thread.lt threadC threadA := fun hl => hl (Or.inl hgt)
    have hsp : sortPair (threadA, threadC) = (threadA, threadC) := by
      simp [sortPair, hns]
    rw [hsp]
    refine (Q3.pos_iff _).mp ?_
    norm_num [threadC, threadA, Q3.pos, Q3.sub_def, Q3.ofRat, Q3.divRat])

/-! ### The sort comparator -/

theorem DifferentialThread.leB_iff (d e : DifferentialThread) :
    DifferentialThread.leB d e = true ↔
      d.effective_pitch ≤ e.effective_pitch ∧
        (e.effective_pitch = d.effective_pitch →
          d.radial_clearance.toReal ≤ e.radial_clearance.toReal) := by
  unfold DifferentialThread.leB
  rw [Bool.not_eq_true', decide_eq_false_iff_not]
  unfold DifferentialThread.lt
  constructor
  · intro h
    rw [not_or] at h
    obtain ⟨h1, h2⟩ := h
    exact ⟨not_lt.mp h1, fun he => (Q3.not_lt_iff _ _).mp (fun c => h2 ⟨he, c⟩)⟩
  · rintro ⟨h1, h2⟩ (hc | ⟨he, hc⟩)
    · exact absurd hc (not_lt.mpr h1)
    · exact absurd hc ((Q3.not_lt_iff _ _).mpr (h2 he))

theorem DifferentialThread.leB_trans (a b c : DifferentialThread)
    (h1 : DifferentialThread.leB a b = true) (h2 : DifferentialThread.leB b c = true) :
    DifferentialThread.leB a c = true := by
  rw [DifferentialThread.leB_iff] at h1 h2 ⊢
  obtain ⟨hab, hab2⟩ := h1
  obtain ⟨hbc, hbc2⟩ := h2
  refine ⟨le_trans hab hbc, fun hca => ?_⟩
  have hba : b.effective_pitch ≤ a.effective_pitch := by
    rw [← hca]
    exact hbc
  have hab' : b.effective_pitch = a.effective_pitch := le_antisymm hba hab
  have hcb : c.effective_pitch = b.effective_pitch := by
    rw [hca, hab']
  exact le_trans (hab2 hab') (hbc2 hcb)

theorem DifferentialThread.leB_total (a b : DifferentialThread) :
    (DifferentialThread.leB a b || DifferentialThread.leB b a) = true := by
  rw [Bool.or_eq_true, DifferentialThread.leB_iff, DifferentialThread.leB_iff]
  rcases lt_trichotomy a.effective_pitch b.effective_pitch with h | h | h
  · exact Or.inl ⟨le_of_lt h, fun he => absurd he.symm (ne_of_lt h)⟩
  · rcases le_total a.radial_clearance.toReal b.radial_clearance.toReal with hr | hr
    · exact Or.inl ⟨le_of_eq h, fun _ => hr⟩
    · exact Or.inr ⟨le_of_eq h.symm, fun _ => hr⟩
  · exact Or.inr ⟨le_of_lt h, fun he => absurd he.symm (ne_of_lt h)⟩

/-- Claim C5: the catalog records are sorted ascending by effective pitch:
every adjacent pair of records `i, i+1` of the generated output satisfies
`effective_pitch[i] ≤ effective_pitch[i+1]`. -/
theorem claim5_catalog_sorted (threads : List Thread) :
    List.Chain' (fun d e : DifferentialThread =>
      d.effective_pitch ≤ e.effective_pitch) (generate threads) := by
  have hs := @List.sorted_mergeSort DifferentialThread DifferentialThread.leB
    DifferentialThread.leB_trans DifferentialThread.leB_total
    ((candidatePairs threads).map DifferentialThread.make)
  have hp : List.Pairwise (fun d e : DifferentialThread =>
      d.effective_pitch ≤ e.effective_pitch) (generate threads) := by
    unfold generate
    exact hs.imp (fun h => ((DifferentialThread.leB_iff _ _).mp h).1)
  exact hp.chain'

/-- Claim C10: the `DifferentialThread` comparison is lexicographic on
`(effective_pitch, radial_clearance)`: two values agreeing on those two
fields compare equal-ordered regardless of `thread_pair` and
`effective_tpi`, and on an effective-pitch tie the value with the smaller
radial clearance orders strictly first. -/
theorem claim10_lex_comparison (d e : DifferentialThread)
    (hp : d.effective_pitch = e.effective_pitch) :
    (d.radial_clearance = e.radial_clearance →
      ¬ DifferentialThread.lt d e ∧ ¬ DifferentialThread.lt e d) ∧
    (Q3.lt d.radial_clearance e.radial_clearance → DifferentialThread.lt d e) := by
  unfold DifferentialThread.lt
  constructor
  · intro hr
    constructor
    · rintro (hlt | ⟨-, hlt⟩)
      · exact absurd hp (ne_of_lt hlt)
      · rw [hr] at hlt
        exact absurd ((Q3.lt_iff _ _).mp hlt) (lt_irrefl _)
    · rintro (hlt | ⟨-, hlt⟩)
      · exact absurd hp.symm (ne_of_lt hlt)
      · rw [hr] at hlt
        exact absurd ((Q3.lt_iff _ _).mp hlt) (lt_irrefl _)
  · intro hlt
    exact Or.inr ⟨hp, hlt⟩

/-- Witness for C10: two records with equal effective pitch and equal radial
clearance but different `thread_pair` and different `effective_tpi` compare
equal in both directions. -/
theorem claim10_witness :
    ¬ DifferentialThread.lt
        { thread_pair := (threadA, threadB), effective_pitch := 1/20,
          effective_tpi := 20, radial_clearance := Q3.ofRat 0 }
        { thread_pair := (threadB, threadC), effective_pitch := 1/20,
          effective_tpi := 999, radial_clearance := Q3.ofRat 0 } ∧
    ¬ DifferentialThread.lt
        { thread_pair := (threadB, threadC), effective_pitch := 1/20,
          effective_tpi := 999, radial_clearance := Q3.ofRat 0 }
        { thread_pair := (threadA, threadB), effective_pitch := 1/20,
          effective_tpi := 20, radial_clearance := Q3.ofRat 0 } :=
  (claim10_lex_comparison _ _ rfl).1 rfl

/-! ### Combination enumeration lemmas -/

theorem mem_combinations2 {l : List Thread} {p : Thread × Thread}
    (h : p ∈ combinations2 l) : p.1 ∈ l ∧ p.2 ∈ l := by
  induction l with
  | nil => cases h
  | cons x xs ih =>
    rw [combinations2] at h
    rcases List.mem_append.mp h with h | h
    · obtain ⟨y, hy, rfl⟩ := List.mem_map.mp h
      exact ⟨List.mem_cons_self _ _, List.mem_cons_of_mem _ hy⟩
    · obtain ⟨h1, h2⟩ := ih h
      exact ⟨List.mem_cons_of_mem _ h1, List.mem_cons_of_mem _ h2⟩

theorem countP_eq_one_of_nodup {xs : List Thread} (hnd : xs.Nodup) {b : Thread}
    (hb : b ∈ xs) :
    List.countP (fun y => decide (y = b)) xs = 1 := by
  induction xs with
  | nil => cases hb
  | cons x xs ih =>
    obtain ⟨hx, hnd'⟩ := List.nodup_cons.mp hnd
    rw [List.countP_cons]
    rcases List.mem_cons.mp hb with hbx | hbxs
    · have h0 : List.countP (fun y => decide (y = b)) xs = 0 := by
        refine List.countP_eq_zero.mpr ?_
        intro y hy
        simp only [decide_eq_true_eq]
        rintro rfl
        rw [hbx] at hy
        exact hx hy
      rw [h0, ← hbx]
      simp
    · have h0 : ¬ (x = b) := by
        rintro rfl
        exact hx hbxs
      rw [ih hnd' hbxs]
      simp [h0]

/-- With duplicate-free input, each unordered pair of distinct threads occurs
exactly once among the 2-combinations (in exactly one of its two orders). -/
theorem countP_combinations2 {l : List Thread} (hl : l.Nodup) {a b : Thread}
    (ha : a ∈ l) (hb : b ∈ l) (hab : a ≠ b) :
    List.countP (fun q => decide (q = (a, b) ∨ q = (b, a))) (combinations2 l) = 1 := by
  induction l with
  | nil => cases ha
  | cons x xs ih =>
    obtain ⟨hx, hnd⟩ := List.nodup_cons.mp hl
    rw [combinations2, List.countP_append, List.countP_map]
    by_cases hax : a = x
    · subst hax
      have hbxs : b ∈ xs := by
        rcases List.mem_cons.mp hb with h | h
        · exact absurd h.symm hab
        · exact h
      have h1 : ((fun q : Thread × Thread => decide (q = (a, b) ∨ q = (b, a))) ∘
          (fun y => (a, y))) = fun y => decide (y = b) := by
        funext y
        simp only [Function.comp_apply]
        refine decide_eq_decide.mpr ?_
        simp [Prod.mk.injEq, hab]
      have h2 : List.countP (fun q : Thread × Thread =>
          decide (q = (a, b) ∨ q = (b, a))) (combinations2 xs) = 0 := by
        refine List.countP_eq_zero.mpr ?_
        intro q hq
        obtain ⟨hq1, hq2⟩ := mem_combinations2 hq
        simp only [decide_eq_true_eq, not_or]
        constructor
        · rintro rfl
          exact hx hq1
        · rintro rfl
          exact hx hq2
      rw [h1, h2, countP_eq_one_of_nodup hnd hbxs]
    · by_cases hbx : b = x
      · subst hbx
        have haxs : a ∈ xs := by
          rcases List.mem_cons.mp ha with h | h
          · exact absurd h hax
          · exact h
        have h1 : ((fun q : Thread × Thread => decide (q = (a, b) ∨ q = (b, a))) ∘
            (fun y => (b, y))) = fun y => decide (y = a) := by
          funext y
          simp only [Function.comp_apply]
          refine decide_eq_decide.mpr ?_
          have : ¬ (b = a) := fun e => hab e.symm
          simp [Prod.mk.injEq, this]
        have h2 : List.countP (fun q : Thread × Thread =>
            decide (q = (a, b) ∨ q = (b, a))) (combinations2 xs) = 0 := by
          refine List.countP_eq_zero.mpr ?_
          intro q hq
          obtain ⟨hq1, hq2⟩ := mem_combinations2 hq
          simp only [decide_eq_true_eq, not_or]
          constructor
          · rintro rfl
            exact hx hq2
          · rintro rfl
            exact hx hq1
        rw [h1, h2, countP_eq_one_of_nodup hnd haxs]
      · have haxs : a ∈ xs := by
          rcases List.mem_cons.mp ha with h | h
          · exact absurd h hax
          · exact h
        have hbxs : b ∈ xs := by
          rcases List.mem_cons.mp hb with h | h
          · exact absurd h hbx
          · exact h
        have h1 : List.countP ((fun q : Thread × Thread =>
            decide (q = (a, b) ∨ q = (b, a))) ∘ (fun y => (x, y))) xs = 0 := by
          refine List.countP_eq_zero.mpr ?_
          intro y hy
          simp only [Function.comp_apply, decide_eq_true_eq, not_or]
          constructor
          · intro e
            exact hax (congrArg Prod.fst e).symm
          · intro e
            exact hbx (congrArg Prod.fst e).symm
        rw [h1, ih hnd haxs hbxs]

/-- The equal-pitch filter keeps every pair of the two orders of `{a, b}`
when the pitches differ, so counting over the filtered list is counting over
all 2-combinations. -/
theorem countP_candidatePairs (l : List Thread) (hl : l.Nodup) {a b : Thread}
    (ha : a ∈ l) (hb : b ∈ l) (hab : a.pitch ≠ b.pitch) :
    List.countP (fun q => decide (q = (a, b) ∨ q = (b, a))) (candidatePairs l) = 1 := by
  have hne : a ≠ b := fun e => hab (congrArg Thread.pitch e)
  rw [candidatePairs, List.countP_filter]
  have hfun : (fun q : Thread × Thread =>
      decide (q = (a, b) ∨ q = (b, a)) && (q.1.pitch != q.2.pitch))
      = fun q => decide (q = (a, b) ∨ q = (b, a)) := by
    funext q
    by_cases hq : q = (a, b) ∨ q = (b, a)
    · rcases hq with rfl | rfl
      · simp [bne_iff_ne, hab]
      · simp [bne_iff_ne, Ne.symm hab]
    · simp [hq]
  rw [hfun]
  exact countP_combinations2 hl ha hb hne

theorem countP_generate (l : List Thread) (hl : l.Nodup) {a b : Thread}
    (ha : a ∈ l) (hb : b ∈ l) (hab : a.pitch ≠ b.pitch) :
    List.countP (fun d => decide (d.thread_pair = (a, b) ∨ d.thread_pair = (b, a)))
      (generate l) = 1 := by
  rw [generate, (List.mergeSort_perm _ _).countP_eq, List.countP_map]
  have hfun : ((fun d : DifferentialThread =>
      decide (d.thread_pair = (a, b) ∨ d.thread_pair = (b, a))) ∘
      DifferentialThread.make) = fun q => decide (q = (a, b) ∨ q = (b, a)) := by
    funext q
    simp only [Function.comp_apply, DifferentialThread.make_thread_pair]
  rw [hfun]
  exact countP_candidatePairs l hl ha hb hab

theorem mem_generate {l : List Thread} {d : DifferentialThread}
    (h : d ∈ generate l) :
    d.thread_pair.1 ∈ l ∧ d.thread_pair.2 ∈ l ∧
      d.thread_pair.1.pitch ≠ d.thread_pair.2.pitch := by
  rw [generate] at h
  have h' := (List.mergeSort_perm _ _).mem_iff.mp h
  obtain ⟨q, hq, rfl⟩ := List.mem_map.mp h'
  rw [candidatePairs, List.mem_filter] at hq
  obtain ⟨hq1, hq2⟩ := hq
  obtain ⟨m1, m2⟩ := mem_combinations2 hq1
  rw [DifferentialThread.make_thread_pair]
  exact ⟨m1, m2, by simpa [bne_iff_ne] using hq2⟩

/-- Counterexample to claim C6: the claim quantifies over every input thread
sequence, but for an input containing a duplicate thread the unordered pair
`{A, B}` is enumerated once per position pair, so it appears twice in the
generated output. -/
theorem claim6_counterexample :
    List.countP (fun d => decide (d.thread_pair = (threadA, threadB) ∨
      d.thread_pair = (threadB, threadA))) (generate [threadA, threadB, threadA]) = 2 := by
  have hcp : candidatePairs [threadA, threadB, threadA] =
      [(threadA, threadB), (threadB, threadA)] := by
    have h1 : ((1:ℚ)/4 != 1/5) = true := bne_iff_ne.mpr (by norm_num)
    have h2 : ((1:ℚ)/5 != 1/4) = true := bne_iff_ne.mpr (by norm_num)
    rw [candidatePairs,
      show combinations2 [threadA, threadB, threadA] =
        [(threadA, threadB), (threadA, threadA), (threadB, threadA)] from rfl]
    norm_num [List.filter, threadA, threadB, h1, h2]
  rw [generate, (List.mergeSort_perm _ _).countP_eq, hcp, List.countP_map]
  rw [show ((fun d : DifferentialThread => decide (d.thread_pair = (threadA, threadB) ∨
      d.thread_pair = (threadB, threadA))) ∘ DifferentialThread.make) =
      fun q : Thread × Thread =>
        decide (q = (threadA, threadB) ∨ q = (threadB, threadA)) from
    funext fun q => by simp only [Function.comp_apply, DifferentialThread.make_thread_pair]]
  norm_num [List.countP_cons]

/-- Claim C6 (amended): for every duplicate-free input thread sequence, the
generated output contains exactly one record per unordered 2-combination of
input threads with differing pitches — counted over both orders of the pair —
and nothing else: every record's pair consists of two distinct input threads
of differing pitch. -/
theorem claim6_combinations_amended (l : List Thread) (hl : l.Nodup) :
    (∀ d ∈ generate l,
      d.thread_pair.1 ∈ l ∧ d.thread_pair.2 ∈ l ∧
        d.thread_pair.1.pitch ≠ d.thread_pair.2.pitch ∧
        d.thread_pair.1 ≠ d.thread_pair.2) ∧
    (∀ a ∈ l, ∀ b ∈ l, a.pitch ≠ b.pitch →
      List.countP (fun d => decide (d.thread_pair = (a, b) ∨ d.thread_pair = (b, a)))
        (generate l) = 1) := by
  constructor
  · intro d hd
    obtain ⟨m1, m2, hp⟩ := mem_generate hd
    exact ⟨m1, m2, hp, fun e => hp (congrArg Thread.pitch e)⟩
  · intro a ha b hb hab
    exact countP_generate l hl ha hb hab

/-- Witness for C6 (amended) on the duplicate-free catalog `[A, B]`: the
unordered pair appears exactly once. -/
theorem claim6_witness :
    List.countP (fun d => decide (d.thread_pair = (threadA, threadB) ∨
      d.thread_pair = (threadB, threadA))) (generate [threadA, threadB]) = 1 :=
  (claim6_combinations_amended [threadA, threadB]
      (by norm_num [threadA, threadB, Thread.mk.injEq])).2
    threadA (by simp) threadB (by simp) (by norm_num [threadA, threadB])

/-- Claim C8: the `threads` field of an output record lists the pair in
`thread_pair` (enumeration) order, not in the internal smaller/larger order;
on the input `[B, A]` with `A` the smaller thread, the single generated
record lists `B` first even though the internal ordering is `(A, B)`. -/
theorem claim8_record_order :
    (∀ p : Thread × Thread, recordThreads (DifferentialThread.make p) = [p.1, p.2]) ∧
    generate [threadB, threadA] = [DifferentialThread.make (threadB, threadA)] ∧
    recordThreads (DifferentialThread.make (threadB, threadA)) = [threadB, threadA] ∧
    sortPair (threadB, threadA) = (threadA, threadB) ∧
    Thread.lt threadA threadB := by
  have hlt : Thread.lt threadA threadB := by
    rintro (hgt | heq)
    · rcases hgt with h | ⟨h, -⟩
      · norm_num [threadA, threadB] at h
      · norm_num [threadA, threadB] at h
    · norm_num [threadA, threadB, Thread.mk.injEq] at heq
  have hcp : candidatePairs [threadB, threadA] = [(threadB, threadA)] := by
    have h2 : ((1:ℚ)/5 != 1/4) = true := bne_iff_ne.mpr (by norm_num)
    rw [candidatePairs,
      show combinations2 [threadB, threadA] = [(threadB, threadA)] from rfl]
    norm_num [List.filter, threadA, threadB, h2]
  refine ⟨fun p => rfl, ?_, rfl, ?_, hlt⟩
  · rw [generate, hcp]
    exact List.mergeSort_singleton _
  · unfold sortPair
    rw [if_pos hlt]

end DiffThreads
